import Mathlib

/-!
Verification of the bit-by-bit quantum-teleportation demo
(`quantum_teleportation.ipynb`).

The notebook builds, for each payload bit, a 3-qubit circuit
(q0 = Alice's qubit `q`, q1/q2 = the entangled pair `psi`), measures
q0 into classical register `crz` and q1 into `crx`, applies Bob's
classically-controlled corrections to q2, and measures q2 into the
output register.  We embed the circuit as an unnormalised integer
amplitude vector over the 8 computational basis states (each Hadamard
drops a global factor 1/sqrt 2, which never affects which outcomes
have probability zero nor the ratios between outcome weights).

The text encoding functions `text_to_bits` / `text_from_bits` are
embedded over `List Nat` (Unicode code points / bytes) and
`List Bool` (bit strings), following the Python source:
`bin`, `zfill`, `int(bits, 2)`, `int.to_bytes`, and UTF-8
encoding/decoding with `errors='surrogatepass'` (surrogate code
points pass through; overlong forms and out-of-range leads are
rejected, as CPython does).
-/

namespace QTeleport

/-- Unnormalised amplitude vector of the 3-qubit system: arguments are
the basis values of qubits q0 (Alice's `q`), q1 (`psi_A`), q2 (`psi_B`). -/
def QState : Type := Bool → Bool → Bool → ℤ

/-- Initial state `|000>`. -/
def initState : QState := fun a b c => if a = false ∧ b = false ∧ c = false then 1 else 0

/-- Hadamard on qubit q0 (unnormalised: `H|0> = |0>+|1>`, `H|1> = |0>-|1>`). -/
def hGate0 (ψ : QState) : QState :=
  fun a b c => ψ false b c + (if a then -1 else 1) * ψ true b c

/-- Hadamard on qubit q1. -/
def hGate1 (ψ : QState) : QState :=
  fun a b c => ψ a false c + (if b then -1 else 1) * ψ a true c

/-- NOT gate on qubit q0. -/
def xGate0 (ψ : QState) : QState := fun a b c => ψ (!a) b c

/-- NOT gate on qubit q2. -/
def xGate2 (ψ : QState) : QState := fun a b c => ψ a b (!c)

/-- Z gate on qubit q2 (negates the amplitude of basis states with q2 = 1). -/
def zGate2 (ψ : QState) : QState := fun a b c => (if c then -1 else 1) * ψ a b c

/-- CNOT with control q0 and target q1. -/
def cxGate01 (ψ : QState) : QState := fun a b c => ψ a (xor b a) c

/-- CNOT with control q1 and target q2. -/
def cxGate12 (ψ : QState) : QState := fun a b c => ψ a b (xor c b)

/-- `create_bell_pair(qc, 1, 2)`: `qc.h(1); qc.cx(1, 2)`. -/
def create_bell_pair (ψ : QState) : QState := cxGate12 (hGate1 ψ)

/-- `alice_encode(qc, 0, value)`: `if value == 1: qc.x(0)`. -/
def alice_encode (value : Bool) (ψ : QState) : QState :=
  if value then xGate0 ψ else ψ

/-- `alice_gates(qc, 0, 1)`: `qc.cx(0, 1); qc.h(0)`. -/
def alice_gates (ψ : QState) : QState := hGate0 (cxGate01 ψ)

/-- Projection of the state onto the branch where measuring q0 gave `m0`
and measuring q1 gave `m1` (`measure_and_send` stores q0 in `crz` and
q1 in `crx`). -/
def projectMeas (m0 m1 : Bool) (ψ : QState) : QState :=
  fun a b c => if a = m0 ∧ b = m1 then ψ a b c else 0

/-- `bob_gates(qc, 2, crz, crx)`: `qc.x(2).c_if(crx, 1); qc.z(2).c_if(crz, 1)`
— the X correction is appended first, then the Z correction. -/
def bob_gates (crz crx : Bool) (ψ : QState) : QState :=
  let ψ1 := if crx then xGate2 ψ else ψ
  if crz then zGate2 ψ1 else ψ1

/-- State just before Alice's measurements in
`build_teleportation_circuit(value)`. -/
def preMeasureState (value : Bool) : QState :=
  alice_gates (alice_encode value (create_bell_pair initState))

/-- Full per-bit circuit state conditioned on Alice's classical outcome
(`m0` goes to `crz`, `m1` to `crx`), after Bob's corrections, just
before Bob's final measurement of q2. -/
def build_teleportation_circuit (value m0 m1 : Bool) : QState :=
  bob_gates m0 m1 (projectMeas m0 m1 (preMeasureState value))

/-- Unnormalised weight of measuring value `v` on the output qubit q2. -/
def outWeight (ψ : QState) (v : Bool) : ℤ :=
  ψ false false v ^ 2 + ψ false true v ^ 2 + ψ true false v ^ 2 + ψ true true v ^ 2

/-- Total unnormalised weight of a state. -/
def totalWeight (ψ : QState) : ℤ := outWeight ψ false + outWeight ψ true

/-- Unnormalised weight of Alice obtaining the classical outcome
`(m0, m1)` when measuring the pre-measurement state for payload `value`. -/
def outcomeWeight (value m0 m1 : Bool) : ℤ :=
  totalWeight (projectMeas m0 m1 (preMeasureState value))

/-- The Correction Table as the spec states it: 00 -> identity,
01 -> X, 10 -> Z, 11 -> Z X (X applied first, then Z). -/
def correctionTable (crz crx : Bool) (ψ : QState) : QState :=
  match crz, crx with
  | false, false => ψ
  | false, true => xGate2 ψ
  | true, false => zGate2 ψ
  | true, true => zGate2 (xGate2 ψ)

instance : DecidableEq QState := by
  unfold QState
  infer_instance

/-- The output bit sampled by one `shots=1` run of the per-bit circuit:
Alice's classical outcome is `(m0, m1)` and `coin` resolves the final
measurement when it is not deterministic (in the ideal model it always
is, and the coin is never consulted). -/
def relayOutputBit (value : Bool) (m0 m1 coin : Bool) : Bool :=
  let ψ := build_teleportation_circuit value m0 m1
  if outWeight ψ true = 0 then false
  else if outWeight ψ false = 0 then true
  else coin

/-- One random draw per transmitted bit: Alice's 2-bit classical outcome
plus a tie-breaking coin for Bob's final measurement. -/
def Draw : Type := (Bool × Bool) × Bool

end QTeleport

namespace QMessage

/-- `int(bits, 2)` on a (nonempty) string of binary digits: the value of
a most-significant-bit-first bit list. -/
def natOfBits (bs : List Bool) : Nat :=
  bs.foldl (fun a b => 2 * a + cond b 1 0) 0

/-- `int.from_bytes(bytes, 'big')`: the value of a big-endian byte list. -/
def natOfBytes (bs : List Nat) : Nat :=
  bs.foldl (fun a b => 256 * a + b) 0

/-- Fuelled helper for `bin(n)[2:]`: the binary digits of `n`,
most-significant first, with no leading zeros (and `[]` for `n = 0`).
Any `fuel ≥ n` computes the true value. -/
def natBitsAux : Nat → Nat → List Bool
  | 0, _ => []
  | _, 0 => []
  | fuel + 1, n + 1 => natBitsAux fuel ((n + 1) / 2) ++ [decide ((n + 1) % 2 = 1)]

/-- `bin(n)[2:]` as a bit list: `"0"` for `n = 0`, otherwise the binary
digits of `n` without leading zeros. -/
def pyBin (n : Nat) : List Bool :=
  if n = 0 then [false] else natBitsAux n n

/-- Fuelled helper for Python's `int.bit_length`. -/
def bitLenAux : Nat → Nat → Nat
  | 0, _ => 0
  | _, 0 => 0
  | fuel + 1, n + 1 => bitLenAux fuel ((n + 1) / 2) + 1

/-- `n.bit_length()`: 0 for `n = 0`, otherwise the position of the
highest set bit plus one. -/
def bitLen (n : Nat) : Nat := bitLenAux n n

/-- `bits.zfill(8 * ((len(bits) + 7) // 8))`: left-pad with `0` up to
the next multiple of 8. -/
def zfill8 (bs : List Bool) : List Bool :=
  List.replicate (8 * ((bs.length + 7) / 8) - bs.length) false ++ bs

/-- `n.to_bytes(len, 'big')` without its overflow check: the `len`
lowest bytes of `n`, big-endian. -/
def natToBeBytes : Nat → Nat → List Nat
  | 0, _ => []
  | len + 1, n => natToBeBytes len (n / 256) ++ [n % 256]

/-- `n.to_bytes(len, 'big')`: fails (OverflowError) when `n` does not
fit in `len` bytes. -/
def pyToBytes (len n : Nat) : Option (List Nat) :=
  if n < 256 ^ len then some (natToBeBytes len n) else none

/-- UTF-8 encoding of one code point, as `str.encode('utf-8',
'surrogatepass')` produces it (surrogates D800-DFFF are encoded like
any other 3-byte code point). -/
def utf8EncodeChar (c : Nat) : List Nat :=
  if c < 0x80 then [c]
  else if c < 0x800 then [0xC0 + c / 64, 0x80 + c % 64]
  else if c < 0x10000 then [0xE0 + c / 4096, 0x80 + c / 64 % 64, 0x80 + c % 64]
  else [0xF0 + c / 262144, 0x80 + c / 4096 % 64, 0x80 + c / 64 % 64, 0x80 + c % 64]

/-- `text.encode('utf-8', 'surrogatepass')` over a list of code points. -/
def utf8Encode : List Nat → List Nat
  | [] => []
  | c :: cs => utf8EncodeChar c ++ utf8Encode cs

/-- Continuation handling for a 2-byte UTF-8 sequence with lead byte
`b` (in 0xC2..0xDF): consume one continuation byte. -/
def utf8StepTail1 (b : Nat) : List Nat → Option (Nat × List Nat)
  | c1 :: rest2 =>
    if 0x80 ≤ c1 ∧ c1 < 0xC0 then some ((b - 0xC0) * 64 + (c1 - 0x80), rest2)
    else none
  | [] => none

/-- Continuation handling for a 3-byte UTF-8 sequence with lead byte
`b` (in 0xE0..0xEF): consume two continuation bytes; reject overlong
forms (`cp < 0x800`); surrogates pass (`errors='surrogatepass'`). -/
def utf8StepTail2 (b : Nat) : List Nat → Option (Nat × List Nat)
  | c1 :: c2 :: rest2 =>
    if (0x80 ≤ c1 ∧ c1 < 0xC0) ∧ (0x80 ≤ c2 ∧ c2 < 0xC0) then
      if (b - 0xE0) * 4096 + (c1 - 0x80) * 64 + (c2 - 0x80) < 0x800 then none
      else some ((b - 0xE0) * 4096 + (c1 - 0x80) * 64 + (c2 - 0x80), rest2)
    else none
  | _ => none

/-- Continuation handling for a 4-byte UTF-8 sequence with lead byte
`b` (in 0xF0..0xF4): consume three continuation bytes; reject overlong
forms and code points above 0x10FFFF. -/
def utf8StepTail3 (b : Nat) : List Nat → Option (Nat × List Nat)
  | c1 :: c2 :: c3 :: rest2 =>
    if (0x80 ≤ c1 ∧ c1 < 0xC0) ∧ (0x80 ≤ c2 ∧ c2 < 0xC0) ∧ (0x80 ≤ c3 ∧ c3 < 0xC0) then
      if (b - 0xF0) * 262144 + (c1 - 0x80) * 4096 + (c2 - 0x80) * 64 + (c3 - 0x80) < 0x10000 ∨
          0x110000 ≤ (b - 0xF0) * 262144 + (c1 - 0x80) * 4096 + (c2 - 0x80) * 64 + (c3 - 0x80) then
        none
      else some ((b - 0xF0) * 262144 + (c1 - 0x80) * 4096 + (c2 - 0x80) * 64 + (c3 - 0x80), rest2)
    else none
  | _ => none

/-- Decode one UTF-8-encoded code point from the front of a byte list,
returning the code point and the remaining bytes; `none` on malformed
input (the lead byte decides how many continuation bytes follow;
0x80..0xC1 leads are invalid, as are leads above 0xF4). -/
def utf8DecodeStep : List Nat → Option (Nat × List Nat)
  | [] => none
  | b :: rest =>
    if b < 0x80 then some (b, rest)
    else if b < 0xC2 then none
    else if b < 0xE0 then utf8StepTail1 b rest
    else if b < 0xF0 then utf8StepTail2 b rest
    else if b < 0xF5 then utf8StepTail3 b rest
    else none

/-- Fuelled decoding loop: each step consumes at least one byte, so any
`fuel ≥` the byte count computes the true result. -/
def utf8DecodeAux : Nat → List Nat → Option (List Nat)
  | _, [] => some []
  | 0, _ :: _ => none
  | fuel + 1, b :: rest =>
    match utf8DecodeStep (b :: rest) with
    | none => none
    | some (c, rest2) => (utf8DecodeAux fuel rest2).map (fun s => c :: s)

/-- `bytes.decode('utf-8', 'surrogatepass')`: strict UTF-8 decoding
except that surrogate code points are accepted; overlong encodings,
leads above 0xF4, stray continuation bytes and truncated sequences
fail (UnicodeDecodeError). -/
def utf8Decode (l : List Nat) : Option (List Nat) :=
  utf8DecodeAux l.length l

/-- `text_to_bits(text)`: UTF-8 encode, read the bytes as one
big-endian integer, take its binary digits, zero-fill to a whole
number of bytes. -/
def text_to_bits (text : List Nat) : List Bool :=
  zfill8 (pyBin (natOfBytes (utf8Encode text)))

/-- `text_from_bits(bits)`: parse the bit string as an integer
(`int('', 2)` raises, hence `none` on the empty list), rebuild
`(bit_length + 7) // 8` big-endian bytes, UTF-8 decode, and replace an
empty result by `'\0'` (the trailing `or '\0'`). -/
def text_from_bits (bits : List Bool) : Option (List Nat) :=
  if bits = [] then none
  else
    match pyToBytes ((bitLen (natOfBits bits) + 7) / 8) (natOfBits bits) with
    | none => none
    | some bytes =>
      match utf8Decode bytes with
      | none => none
      | some s => some (if s = [] then [0] else s)

/-- The per-bit loop body of `send_quantum_message`: transmit each bit
of the encoded message in order, one circuit execution per bit, the
`i`-th execution consuming the `i`-th random draw. -/
def relayLoop (stream : Nat → QTeleport.Draw) : List Bool → Nat → List Bool
  | [], _ => []
  | b :: bs, i =>
    QTeleport.relayOutputBit b (stream i).1.1 (stream i).1.2 (stream i).2 ::
      relayLoop stream bs (i + 1)

/-- `send_quantum_message(message)`: encode, teleport bit by bit,
concatenate the received bits, decode. -/
def send_quantum_message (stream : Nat → QTeleport.Draw) (message : List Nat) :
    Option (List Nat) :=
  text_from_bits (relayLoop stream (text_to_bits message) 0)

/-! ### Arithmetic facts about the bit- and byte-level helpers -/

theorem natOfBits_foldl (l : List Bool) (a : ℕ) :
    l.foldl (fun x b => 2 * x + cond b 1 0) a = a * 2 ^ l.length + natOfBits l := by
  induction l generalizing a with
  | nil => simp [natOfBits]
  | cons b t ih =>
    simp only [List.foldl_cons, List.length_cons, natOfBits]
    rw [ih, ih (2 * 0 + cond b 1 0)]
    ring

theorem natOfBits_append_singleton (l : List Bool) (b : Bool) :
    natOfBits (l ++ [b]) = 2 * natOfBits l + cond b 1 0 := by
  unfold natOfBits
  rw [List.foldl_append, natOfBits_foldl]
  simp [natOfBits]
  ring

theorem natOfBits_replicate_false (k : ℕ) :
    natOfBits (List.replicate k false) = 0 := by
  induction k with
  | zero => rfl
  | succ m ih =>
    unfold natOfBits at ih ⊢
    rw [List.replicate_succ, List.foldl_cons]
    simpa using ih

theorem natOfBits_replicate_append (k : ℕ) (l : List Bool) :
    natOfBits (List.replicate k false ++ l) = natOfBits l := by
  unfold natOfBits
  rw [List.foldl_append]
  have h0 : (List.replicate k false).foldl (fun x b => 2 * x + cond b 1 0) 0 = 0 :=
    natOfBits_replicate_false k
  rw [h0]

theorem natOfBits_zero_of_all_false (l : List Bool) (h : ∀ b ∈ l, b = false) :
    natOfBits l = 0 := by
  have : l = List.replicate l.length false := List.eq_replicate_length.mpr h
  rw [this, natOfBits_replicate_false]

theorem natOfBits_zfill8 (l : List Bool) : natOfBits (zfill8 l) = natOfBits l :=
  natOfBits_replicate_append _ l

theorem zfill8_length (l : List Bool) :
    (zfill8 l).length = 8 * ((l.length + 7) / 8) := by
  simp only [zfill8, List.length_append, List.length_replicate]
  omega

theorem natBitsAux_value (fuel : ℕ) :
    ∀ n : ℕ, n ≤ fuel → natOfBits (natBitsAux fuel n) = n := by
  induction fuel with
  | zero =>
    intro n hn
    interval_cases n
    rfl
  | succ f ih =>
    intro n hn
    match n with
    | 0 => rfl
    | m + 1 =>
      have hstep : natBitsAux (f + 1) (m + 1) =
          natBitsAux f ((m + 1) / 2) ++ [decide ((m + 1) % 2 = 1)] := rfl
      rw [hstep, natOfBits_append_singleton, ih ((m + 1) / 2) (by omega)]
      rcases Nat.mod_two_eq_zero_or_one (m + 1) with h | h <;> simp [h] <;> omega

theorem natBitsAux_length (fuel : ℕ) :
    ∀ n : ℕ, n ≤ fuel → (natBitsAux fuel n).length = bitLenAux fuel n := by
  induction fuel with
  | zero =>
    intro n hn
    interval_cases n
    rfl
  | succ f ih =>
    intro n hn
    match n with
    | 0 => rfl
    | m + 1 =>
      have hstep : natBitsAux (f + 1) (m + 1) =
          natBitsAux f ((m + 1) / 2) ++ [decide ((m + 1) % 2 = 1)] := rfl
      have hlen : bitLenAux (f + 1) (m + 1) = bitLenAux f ((m + 1) / 2) + 1 := rfl
      rw [hstep, List.length_append, ih ((m + 1) / 2) (by omega), hlen]
      rfl

theorem bitLenAux_zero (fuel : ℕ) : bitLenAux fuel 0 = 0 := by
  cases fuel <;> rfl

theorem bitLenAux_eq (fuel : ℕ) :
    ∀ fuel2 n : ℕ, n ≤ fuel → n ≤ fuel2 → bitLenAux fuel n = bitLenAux fuel2 n := by
  induction fuel with
  | zero =>
    intro fuel2 n hn _
    interval_cases n
    rw [bitLenAux_zero, bitLenAux_zero]
  | succ f ih =>
    intro fuel2 n hn hn2
    match n with
    | 0 => rw [bitLenAux_zero, bitLenAux_zero]
    | m + 1 =>
      match fuel2 with
      | 0 => omega
      | g + 1 =>
        have h1 : bitLenAux (f + 1) (m + 1) = bitLenAux f ((m + 1) / 2) + 1 := rfl
        have h2 : bitLenAux (g + 1) (m + 1) = bitLenAux g ((m + 1) / 2) + 1 := rfl
        rw [h1, h2, ih g ((m + 1) / 2) (by omega) (by omega)]

theorem bitLenAux_bounds (fuel : ℕ) :
    ∀ n : ℕ, n ≤ fuel →
      n < 2 ^ bitLenAux fuel n ∧ (1 ≤ n → 2 ^ (bitLenAux fuel n - 1) ≤ n) := by
  induction fuel with
  | zero =>
    intro n hn
    interval_cases n
    exact ⟨by simp [bitLenAux], by omega⟩
  | succ f ih =>
    intro n hn
    match n with
    | 0 => exact ⟨by simp [bitLenAux_zero], by omega⟩
    | m + 1 =>
      have hstep : bitLenAux (f + 1) (m + 1) = bitLenAux f ((m + 1) / 2) + 1 := rfl
      obtain ⟨hub, hlb⟩ := ih ((m + 1) / 2) (by omega)
      set k := bitLenAux f ((m + 1) / 2) with hk
      constructor
      · rw [hstep, pow_succ]
        omega
      · intro _
        rw [hstep]
        simp only [Nat.add_sub_cancel]
        by_cases hhalf : (m + 1) / 2 = 0
        · have hm : m = 0 := by omega
          subst hm
          have : k = 0 := by rw [hk, hhalf, bitLenAux_zero]
          rw [this]
          omega
        · have h1 : 1 ≤ (m + 1) / 2 := by omega
          have hk1 : 1 ≤ k := by
            by_contra hc
            have : k = 0 := by omega
            rw [this] at hub
            omega
          have hlow := hlb h1
          have hpow : 2 ^ k = 2 * 2 ^ (k - 1) := by
            conv_lhs => rw [show k = (k - 1) + 1 by omega]
            rw [pow_succ]
            ring
          omega

theorem bitLen_lt_two_pow (n : ℕ) : n < 2 ^ bitLen n :=
  (bitLenAux_bounds n n le_rfl).1

theorem two_pow_bitLen_le (n : ℕ) (h : 1 ≤ n) : 2 ^ (bitLen n - 1) ≤ n :=
  (bitLenAux_bounds n n le_rfl).2 h

theorem bitLen_le_of_lt_two_pow (n m : ℕ) (h : n < 2 ^ m) : bitLen n ≤ m := by
  by_contra hc
  have h1 : 1 ≤ n := by
    by_contra h0
    have hn : n = 0 := by omega
    rw [hn, bitLen, bitLenAux_zero] at hc
    omega
  have hle : m ≤ bitLen n - 1 := by omega
  have := Nat.pow_le_pow_right (by omega : 1 ≤ 2) hle
  have := two_pow_bitLen_le n h1
  omega

theorem lt_bitLen_of_two_pow_le (n m : ℕ) (h : 2 ^ m ≤ n) : m < bitLen n := by
  by_contra hc
  have hle : bitLen n ≤ m := by omega
  have := Nat.pow_le_pow_right (by omega : 1 ≤ 2) hle
  have := bitLen_lt_two_pow n
  omega

theorem natOfBytes_foldl (l : List ℕ) (a : ℕ) :
    l.foldl (fun x b => 256 * x + b) a = a * 256 ^ l.length + natOfBytes l := by
  induction l generalizing a with
  | nil => simp [natOfBytes]
  | cons b t ih =>
    simp only [List.foldl_cons, List.length_cons, natOfBytes]
    rw [ih, ih (256 * 0 + b)]
    ring

theorem natOfBytes_cons (b : ℕ) (l : List ℕ) :
    natOfBytes (b :: l) = b * 256 ^ l.length + natOfBytes l := by
  unfold natOfBytes
  rw [List.foldl_cons, natOfBytes_foldl]
  simp [natOfBytes]

theorem natOfBytes_append_singleton (l : List ℕ) (d : ℕ) :
    natOfBytes (l ++ [d]) = 256 * natOfBytes l + d := by
  unfold natOfBytes
  rw [List.foldl_append, natOfBytes_foldl]
  simp [natOfBytes]
  ring

theorem natOfBytes_lt (l : List ℕ) (h : ∀ b ∈ l, b < 256) :
    natOfBytes l < 256 ^ l.length := by
  induction l with
  | nil => simp [natOfBytes]
  | cons b t ih =>
    rw [natOfBytes_cons, List.length_cons, pow_succ]
    have hb : b < 256 := h b (List.mem_cons_self b t)
    have ht := ih (fun x hx => h x (List.mem_cons_of_mem b hx))
    have hble : b * 256 ^ t.length ≤ 255 * 256 ^ t.length :=
      Nat.mul_le_mul_right _ (by omega)
    have : (256 : ℕ) ^ t.length * 256 = 256 * 256 ^ t.length := by ring
    rw [this]
    omega

theorem natToBeBytes_natOfBytes (l : List ℕ) (h : ∀ b ∈ l, b < 256) :
    natToBeBytes l.length (natOfBytes l) = l := by
  induction l using List.reverseRecOn with
  | nil => rfl
  | append_singleton t d ih =>
    have hd : d < 256 := h d (by simp)
    have ht : ∀ b ∈ t, b < 256 := fun b hb => h b (by simp [hb])
    rw [natOfBytes_append_singleton, List.length_append, List.length_cons,
      List.length_nil]
    have hstep : natToBeBytes (t.length + 1) (256 * natOfBytes t + d) =
        natToBeBytes t.length ((256 * natOfBytes t + d) / 256) ++
          [(256 * natOfBytes t + d) % 256] := rfl
    rw [hstep]
    have hdiv : (256 * natOfBytes t + d) / 256 = natOfBytes t := by omega
    have hmod : (256 * natOfBytes t + d) % 256 = d := by omega
    rw [hdiv, hmod, ih ht]

theorem lt_pow_toBytes_len (n : ℕ) : n < 256 ^ ((bitLen n + 7) / 8) := by
  have h1 := bitLen_lt_two_pow n
  have h2 : bitLen n ≤ 8 * ((bitLen n + 7) / 8) := by omega
  have h3 : (2 : ℕ) ^ bitLen n ≤ 2 ^ (8 * ((bitLen n + 7) / 8)) :=
    Nat.pow_le_pow_right (by omega) h2
  have h4 : (2 : ℕ) ^ (8 * ((bitLen n + 7) / 8)) = 256 ^ ((bitLen n + 7) / 8) := by
    rw [pow_mul]
    norm_num
  omega

theorem pow256_eq_two_pow (m : ℕ) : (256 : ℕ) ^ m = 2 ^ (8 * m) := by
  rw [pow_mul]
  norm_num

/-! ### The UTF-8 decoder inverts the UTF-8 encoder -/

theorem utf8EncodeChar_bytes_lt (c : ℕ) (hc : c < 0x110000) :
    ∀ b ∈ utf8EncodeChar c, b < 256 := by
  intro b hb
  unfold utf8EncodeChar at hb
  split_ifs at hb with h1 h2 h3 <;> simp only [List.mem_cons, List.mem_singleton,
    List.not_mem_nil, or_false] at hb <;> rcases hb with rfl | hb <;> omega

theorem utf8Encode_bytes_lt (s : List ℕ) (hs : ∀ c ∈ s, c < 0x110000) :
    ∀ b ∈ utf8Encode s, b < 256 := by
  induction s with
  | nil => intro b hb; simp [utf8Encode] at hb
  | cons c cs ih =>
    intro b hb
    rw [show utf8Encode (c :: cs) = utf8EncodeChar c ++ utf8Encode cs from rfl,
      List.mem_append] at hb
    rcases hb with hb | hb
    · exact utf8EncodeChar_bytes_lt c (hs c (by simp)) b hb
    · exact ih (fun x hx => hs x (by simp [hx])) b hb

theorem utf8EncodeChar_cons (c : ℕ) :
    ∃ b t2, utf8EncodeChar c = b :: t2 ∧ (1 ≤ c → 1 ≤ b) := by
  unfold utf8EncodeChar
  split_ifs with h1 h2 h3
  · exact ⟨c, [], rfl, fun h => h⟩
  · exact ⟨_, _, rfl, fun _ => by omega⟩
  · exact ⟨_, _, rfl, fun _ => by omega⟩
  · exact ⟨_, _, rfl, fun _ => by omega⟩

theorem utf8DecodeStep_encodeChar (c : ℕ) (hc : c < 0x110000) (t : List ℕ) :
    utf8DecodeStep (utf8EncodeChar c ++ t) = some (c, t) := by
  by_cases h1 : c < 0x80
  · have he : utf8EncodeChar c = [c] := by simp [utf8EncodeChar, h1]
    rw [he, List.cons_append, List.nil_append]
    simp [utf8DecodeStep, h1]
  · by_cases h2 : c < 0x800
    · have he : utf8EncodeChar c = [0xC0 + c / 64, 0x80 + c % 64] := by
        simp [utf8EncodeChar, h1, h2]
      rw [he, List.cons_append, List.cons_append, List.nil_append]
      rw [show utf8DecodeStep ((0xC0 + c / 64) :: (0x80 + c % 64) :: t) =
          (if 0xC0 + c / 64 < 0x80 then some (0xC0 + c / 64, (0x80 + c % 64) :: t)
           else if 0xC0 + c / 64 < 0xC2 then none
           else if 0xC0 + c / 64 < 0xE0 then utf8StepTail1 (0xC0 + c / 64) ((0x80 + c % 64) :: t)
           else if 0xC0 + c / 64 < 0xF0 then utf8StepTail2 (0xC0 + c / 64) ((0x80 + c % 64) :: t)
           else if 0xC0 + c / 64 < 0xF5 then utf8StepTail3 (0xC0 + c / 64) ((0x80 + c % 64) :: t)
           else none) from rfl]
      rw [if_neg (by omega), if_neg (by omega), if_pos (by omega)]
      rw [show utf8StepTail1 (0xC0 + c / 64) ((0x80 + c % 64) :: t) =
          (if 0x80 ≤ 0x80 + c % 64 ∧ 0x80 + c % 64 < 0xC0 then
            some ((0xC0 + c / 64 - 0xC0) * 64 + (0x80 + c % 64 - 0x80), t)
           else none) from rfl]
      rw [if_pos (by omega)]
      have hcp : (0xC0 + c / 64 - 0xC0) * 64 + (0x80 + c % 64 - 0x80) = c := by omega
      rw [hcp]
    · by_cases h3 : c < 0x10000
      · have he : utf8EncodeChar c = [0xE0 + c / 4096, 0x80 + c / 64 % 64, 0x80 + c % 64] := by
          simp [utf8EncodeChar, h1, h2, h3]
        rw [he, List.cons_append, List.cons_append, List.cons_append, List.nil_append]
        rw [show utf8DecodeStep
            ((0xE0 + c / 4096) :: (0x80 + c / 64 % 64) :: (0x80 + c % 64) :: t) =
            (if 0xE0 + c / 4096 < 0x80 then
              some (0xE0 + c / 4096, (0x80 + c / 64 % 64) :: (0x80 + c % 64) :: t)
             else if 0xE0 + c / 4096 < 0xC2 then none
             else if 0xE0 + c / 4096 < 0xE0 then
              utf8StepTail1 (0xE0 + c / 4096) ((0x80 + c / 64 % 64) :: (0x80 + c % 64) :: t)
             else if 0xE0 + c / 4096 < 0xF0 then
              utf8StepTail2 (0xE0 + c / 4096) ((0x80 + c / 64 % 64) :: (0x80 + c % 64) :: t)
             else if 0xE0 + c / 4096 < 0xF5 then
              utf8StepTail3 (0xE0 + c / 4096) ((0x80 + c / 64 % 64) :: (0x80 + c % 64) :: t)
             else none) from rfl]
        rw [if_neg (by omega), if_neg (by omega), if_neg (by omega), if_pos (by omega)]
        rw [show utf8StepTail2 (0xE0 + c / 4096) ((0x80 + c / 64 % 64) :: (0x80 + c % 64) :: t) =
            (if (0x80 ≤ 0x80 + c / 64 % 64 ∧ 0x80 + c / 64 % 64 < 0xC0) ∧
                (0x80 ≤ 0x80 + c % 64 ∧ 0x80 + c % 64 < 0xC0) then
              if (0xE0 + c / 4096 - 0xE0) * 4096 + (0x80 + c / 64 % 64 - 0x80) * 64 +
                  (0x80 + c % 64 - 0x80) < 0x800 then none
              else some ((0xE0 + c / 4096 - 0xE0) * 4096 + (0x80 + c / 64 % 64 - 0x80) * 64 +
                  (0x80 + c % 64 - 0x80), t)
             else none) from rfl]
        have hcp : (0xE0 + c / 4096 - 0xE0) * 4096 + (0x80 + c / 64 % 64 - 0x80) * 64 +
            (0x80 + c % 64 - 0x80) = c := by omega
        rw [if_pos (by omega), hcp, if_neg (by omega : ¬ (c < 0x800))]
      · have he : utf8EncodeChar c =
            [0xF0 + c / 262144, 0x80 + c / 4096 % 64, 0x80 + c / 64 % 64, 0x80 + c % 64] := by
          simp [utf8EncodeChar, h1, h2, h3]
        rw [he, List.cons_append, List.cons_append, List.cons_append, List.cons_append,
          List.nil_append]
        rw [show utf8DecodeStep ((0xF0 + c / 262144) :: (0x80 + c / 4096 % 64) ::
            (0x80 + c / 64 % 64) :: (0x80 + c % 64) :: t) =
            (if 0xF0 + c / 262144 < 0x80 then
              some (0xF0 + c / 262144,
                (0x80 + c / 4096 % 64) :: (0x80 + c / 64 % 64) :: (0x80 + c % 64) :: t)
             else if 0xF0 + c / 262144 < 0xC2 then none
             else if 0xF0 + c / 262144 < 0xE0 then
              utf8StepTail1 (0xF0 + c / 262144)
                ((0x80 + c / 4096 % 64) :: (0x80 + c / 64 % 64) :: (0x80 + c % 64) :: t)
             else if 0xF0 + c / 262144 < 0xF0 then
              utf8StepTail2 (0xF0 + c / 262144)
                ((0x80 + c / 4096 % 64) :: (0x80 + c / 64 % 64) :: (0x80 + c % 64) :: t)
             else if 0xF0 + c / 262144 < 0xF5 then
              utf8StepTail3 (0xF0 + c / 262144)
                ((0x80 + c / 4096 % 64) :: (0x80 + c / 64 % 64) :: (0x80 + c % 64) :: t)
             else none) from rfl]
        rw [if_neg (by omega), if_neg (by omega), if_neg (by omega), if_neg (by omega),
          if_pos (by omega)]
        rw [show utf8StepTail3 (0xF0 + c / 262144)
            ((0x80 + c / 4096 % 64) :: (0x80 + c / 64 % 64) :: (0x80 + c % 64) :: t) =
            (if (0x80 ≤ 0x80 + c / 4096 % 64 ∧ 0x80 + c / 4096 % 64 < 0xC0) ∧
                (0x80 ≤ 0x80 + c / 64 % 64 ∧ 0x80 + c / 64 % 64 < 0xC0) ∧
                (0x80 ≤ 0x80 + c % 64 ∧ 0x80 + c % 64 < 0xC0) then
              if (0xF0 + c / 262144 - 0xF0) * 262144 + (0x80 + c / 4096 % 64 - 0x80) * 4096 +
                  (0x80 + c / 64 % 64 - 0x80) * 64 + (0x80 + c % 64 - 0x80) < 0x10000 ∨
                  0x110000 ≤ (0xF0 + c / 262144 - 0xF0) * 262144 +
                    (0x80 + c / 4096 % 64 - 0x80) * 4096 +
                    (0x80 + c / 64 % 64 - 0x80) * 64 + (0x80 + c % 64 - 0x80) then
                none
              else some ((0xF0 + c / 262144 - 0xF0) * 262144 +
                  (0x80 + c / 4096 % 64 - 0x80) * 4096 +
                  (0x80 + c / 64 % 64 - 0x80) * 64 + (0x80 + c % 64 - 0x80), t)
             else none) from rfl]
        have hcp : (0xF0 + c / 262144 - 0xF0) * 262144 + (0x80 + c / 4096 % 64 - 0x80) * 4096 +
            (0x80 + c / 64 % 64 - 0x80) * 64 + (0x80 + c % 64 - 0x80) = c := by omega
        rw [if_pos (by omega), hcp, if_neg (by omega : ¬ (c < 0x10000 ∨ 0x110000 ≤ c))]

theorem utf8DecodeAux_succ_cons (f x : ℕ) (xs : List ℕ) :
    utf8DecodeAux (f + 1) (x :: xs) =
      match utf8DecodeStep (x :: xs) with
      | none => none
      | some (c, rest2) => (utf8DecodeAux f rest2).map (fun s => c :: s) := rfl

theorem utf8DecodeAux_nil (fuel : ℕ) : utf8DecodeAux fuel [] = some [] := by
  cases fuel <;> rfl

theorem utf8DecodeAux_encode (s : List ℕ) :
    ∀ fuel : ℕ, (∀ c ∈ s, c < 0x110000) → (utf8Encode s).length ≤ fuel →
      utf8DecodeAux fuel (utf8Encode s) = some s := by
  induction s with
  | nil => intro fuel _ _; exact utf8DecodeAux_nil fuel
  | cons c cs ih =>
    intro fuel hs hfuel
    have hc : c < 0x110000 := hs c (by simp)
    have hcs : ∀ x ∈ cs, x < 0x110000 := fun x hx => hs x (by simp [hx])
    obtain ⟨b, t2, he2, -⟩ := utf8EncodeChar_cons c
    have henc : utf8Encode (c :: cs) = utf8EncodeChar c ++ utf8Encode cs := rfl
    have hlen : (utf8Encode (c :: cs)).length =
        (utf8EncodeChar c).length + (utf8Encode cs).length := by
      rw [henc, List.length_append]
    have hlen1 : 1 ≤ (utf8EncodeChar c).length := by rw [he2]; simp
    match fuel with
    | 0 => omega
    | f + 1 =>
      rw [henc, he2, List.cons_append, utf8DecodeAux_succ_cons, ← List.cons_append, ← he2,
        utf8DecodeStep_encodeChar c hc (utf8Encode cs)]
      show (utf8DecodeAux f (utf8Encode cs)).map (fun s => c :: s) = some (c :: cs)
      rw [ih f hcs (by omega)]
      rfl

theorem utf8StepTail1_length (b c : ℕ) (rest r2 : List ℕ)
    (h : utf8StepTail1 b rest = some (c, r2)) : r2.length < rest.length := by
  match rest with
  | [] => simp [utf8StepTail1] at h
  | c1 :: rest2 =>
    rw [utf8StepTail1] at h
    split_ifs at h
    simp only [Option.some.injEq, Prod.mk.injEq] at h
    rw [← h.2]
    simp

theorem utf8StepTail2_length (b c : ℕ) (rest r2 : List ℕ)
    (h : utf8StepTail2 b rest = some (c, r2)) : r2.length < rest.length := by
  match rest with
  | [] => simp [utf8StepTail2] at h
  | [c1] => simp [utf8StepTail2] at h
  | c1 :: c2 :: rest2 =>
    rw [utf8StepTail2] at h
    split_ifs at h
    simp only [Option.some.injEq, Prod.mk.injEq] at h
    rw [← h.2]
    simp only [List.length_cons]
    omega

theorem utf8StepTail3_length (b c : ℕ) (rest r2 : List ℕ)
    (h : utf8StepTail3 b rest = some (c, r2)) : r2.length < rest.length := by
  match rest with
  | [] => simp [utf8StepTail3] at h
  | [c1] => simp [utf8StepTail3] at h
  | [c1, c2] => simp [utf8StepTail3] at h
  | c1 :: c2 :: c3 :: rest2 =>
    rw [utf8StepTail3] at h
    split_ifs at h
    simp only [Option.some.injEq, Prod.mk.injEq] at h
    rw [← h.2]
    simp only [List.length_cons]
    omega

theorem utf8DecodeStep_length (l : List ℕ) (c : ℕ) (r2 : List ℕ)
    (h : utf8DecodeStep l = some (c, r2)) : r2.length < l.length := by
  match l with
  | [] => simp [utf8DecodeStep] at h
  | b :: rest =>
    rw [utf8DecodeStep] at h
    split_ifs at h with g1 g2 g3 g4 g5
    · simp only [Option.some.injEq, Prod.mk.injEq] at h
      rw [← h.2]
      simp
    · have := utf8StepTail1_length b c rest r2 h
      simp only [List.length_cons]
      omega
    · have := utf8StepTail2_length b c rest r2 h
      simp only [List.length_cons]
      omega
    · have := utf8StepTail3_length b c rest r2 h
      simp only [List.length_cons]
      omega

theorem utf8DecodeAux_fuel (fuel : ℕ) :
    ∀ (fuel2 : ℕ) (l : List ℕ), l.length ≤ fuel → l.length ≤ fuel2 →
      utf8DecodeAux fuel l = utf8DecodeAux fuel2 l := by
  induction fuel with
  | zero =>
    intro fuel2 l h1 _
    have : l = [] := List.length_eq_zero.mp (by omega)
    rw [this, utf8DecodeAux_nil, utf8DecodeAux_nil]
  | succ f ih =>
    intro fuel2 l h1 h2
    cases l with
    | nil => rw [utf8DecodeAux_nil, utf8DecodeAux_nil]
    | cons x xs =>
      match fuel2 with
      | 0 => simp at h2
      | g + 1 =>
        rw [utf8DecodeAux_succ_cons, utf8DecodeAux_succ_cons]
        cases hstep : utf8DecodeStep (x :: xs) with
        | none => rfl
        | some pr =>
          obtain ⟨c, r2⟩ := pr
          have hl := utf8DecodeStep_length _ _ _ hstep
          simp only [List.length_cons] at hl h1 h2
          show (utf8DecodeAux f r2).map (fun s => c :: s) =
            (utf8DecodeAux g r2).map (fun s => c :: s)
          rw [ih g r2 (by omega) (by omega)]

theorem utf8Decode_utf8Encode (s : List ℕ) (hs : ∀ c ∈ s, c < 0x110000) :
    utf8Decode (utf8Encode s) = some s := by
  rw [utf8Decode]
  exact utf8DecodeAux_encode s _ hs le_rfl

/-! ### The text round trip -/

/-- Core round-trip argument: a non-empty string whose first code point
is not NUL produces a byte string whose big-endian integer value has a
bit length in `(8(L-1), 8L]`; the `zfill` padding therefore restores
exactly the stripped leading zero bits, `to_bytes` rebuilds the exact
byte string, and UTF-8 decoding recovers the original code points. -/
theorem text_roundtrip_aux (c0 : ℕ) (cs : List ℕ) (h1 : 1 ≤ c0) (h2 : c0 < 0x110000)
    (hcs : ∀ c ∈ cs, c < 0x110000) :
    text_from_bits (text_to_bits (c0 :: cs)) = some (c0 :: cs) := by
  have hall : ∀ c ∈ c0 :: cs, c < 0x110000 := by
    intro c hc
    rcases List.mem_cons.mp hc with rfl | hc
    · exact h2
    · exact hcs c hc
  have hBlt : ∀ b ∈ utf8Encode (c0 :: cs), b < 256 := utf8Encode_bytes_lt _ hall
  obtain ⟨b0, t2, he2, hb0i⟩ := utf8EncodeChar_cons c0
  have hb0 : 1 ≤ b0 := hb0i h1
  have hBcons : utf8Encode (c0 :: cs) = b0 :: (t2 ++ utf8Encode cs) := by
    rw [show utf8Encode (c0 :: cs) = utf8EncodeChar c0 ++ utf8Encode cs from rfl, he2,
      List.cons_append]
  have hLpos : 1 ≤ (utf8Encode (c0 :: cs)).length := by rw [hBcons]; simp
  have hnub : natOfBytes (utf8Encode (c0 :: cs)) < 256 ^ (utf8Encode (c0 :: cs)).length :=
    natOfBytes_lt _ hBlt
  have hnlb : 256 ^ ((utf8Encode (c0 :: cs)).length - 1) ≤ natOfBytes (utf8Encode (c0 :: cs)) := by
    rw [hBcons, natOfBytes_cons]
    have hlen : (b0 :: (t2 ++ utf8Encode cs)).length = (t2 ++ utf8Encode cs).length + 1 := by
      simp
    rw [hlen, Nat.add_sub_cancel]
    have := Nat.le_mul_of_pos_left (256 ^ (t2 ++ utf8Encode cs).length) (by omega : 0 < b0)
    omega
  have hn1 : 1 ≤ natOfBytes (utf8Encode (c0 :: cs)) := by
    have := Nat.one_le_pow ((utf8Encode (c0 :: cs)).length - 1) 256 (by omega)
    omega
  have hk2 : bitLen (natOfBytes (utf8Encode (c0 :: cs))) ≤ 8 * (utf8Encode (c0 :: cs)).length := by
    apply bitLen_le_of_lt_two_pow
    rw [← pow256_eq_two_pow]
    exact hnub
  have hk1 : 8 * ((utf8Encode (c0 :: cs)).length - 1) <
      bitLen (natOfBytes (utf8Encode (c0 :: cs))) := by
    apply lt_bitLen_of_two_pow_le
    rw [← pow256_eq_two_pow]
    exact hnlb
  have hdiv : (bitLen (natOfBytes (utf8Encode (c0 :: cs))) + 7) / 8 =
      (utf8Encode (c0 :: cs)).length := by omega
  have hpyBin : pyBin (natOfBytes (utf8Encode (c0 :: cs))) =
      natBitsAux (natOfBytes (utf8Encode (c0 :: cs))) (natOfBytes (utf8Encode (c0 :: cs))) := by
    rw [pyBin, if_neg (by omega)]
  have hval : natOfBits (pyBin (natOfBytes (utf8Encode (c0 :: cs)))) =
      natOfBytes (utf8Encode (c0 :: cs)) := by
    rw [hpyBin]
    exact natBitsAux_value _ _ le_rfl
  have hlenp : (pyBin (natOfBytes (utf8Encode (c0 :: cs)))).length =
      bitLen (natOfBytes (utf8Encode (c0 :: cs))) := by
    rw [hpyBin]
    exact natBitsAux_length _ _ le_rfl
  have hne : zfill8 (pyBin (natOfBytes (utf8Encode (c0 :: cs)))) ≠ [] := by
    intro hcontra
    have hl := zfill8_length (pyBin (natOfBytes (utf8Encode (c0 :: cs))))
    rw [hcontra] at hl
    simp only [List.length_nil] at hl
    rw [hlenp] at hl
    omega
  rw [text_to_bits, text_from_bits, if_neg hne, natOfBits_zfill8, hval, hdiv, pyToBytes,
    if_pos hnub, natToBeBytes_natOfBytes _ hBlt]
  show (match utf8Decode (utf8Encode (c0 :: cs)) with
        | none => none
        | some s => some (if s = [] then [0] else s)) = some (c0 :: cs)
  rw [utf8Decode_utf8Encode _ hall]
  simp

/-! ### The relay loop in the ideal model -/

theorem relayOutputBit_ideal : ∀ value m0 m1 coin : Bool,
    QTeleport.relayOutputBit value m0 m1 coin = value := by decide

theorem relayLoop_ideal (stream : ℕ → QTeleport.Draw) :
    ∀ (bs : List Bool) (i : ℕ), relayLoop stream bs i = bs := by
  intro bs
  induction bs with
  | nil => intro i; rfl
  | cons b t ih =>
    intro i
    rw [relayLoop, relayOutputBit_ideal, ih]

theorem relayLoop_length (stream : ℕ → QTeleport.Draw) :
    ∀ (bs : List Bool) (i : ℕ), (relayLoop stream bs i).length = bs.length := by
  intro bs
  induction bs with
  | nil => intro i; rfl
  | cons b t ih =>
    intro i
    rw [relayLoop, List.length_cons, List.length_cons, ih]

theorem relayLoop_getD (stream : ℕ → QTeleport.Draw) :
    ∀ (bs : List Bool) (i0 i : ℕ), i < bs.length →
      (relayLoop stream bs i0).getD i false =
        QTeleport.relayOutputBit (bs.getD i false)
          (stream (i0 + i)).1.1 (stream (i0 + i)).1.2 (stream (i0 + i)).2 := by
  intro bs
  induction bs with
  | nil => intro i0 i hi; simp at hi
  | cons b t ih =>
    intro i0 i hi
    match i with
    | 0 => simp [relayLoop]
    | j + 1 =>
      rw [relayLoop]
      simp only [List.getD_cons_succ]
      rw [show i0 + (j + 1) = (i0 + 1) + j by omega]
      exact ih (i0 + 1) j (by simpa using hi)

end QMessage

open QTeleport QMessage

/-! ### The claims -/

/-- C1 — for every input bit `b`, the per-bit teleportation circuit built by
`build_teleportation_circuit(b)` in the ideal noiseless simulation yields a
final output-bit measurement equal to `b` with certainty, for each of the 4
possible 2-bit classical measurement outcomes: the output weight of `¬b` is
zero and the output weight of `b` is nonzero in every conditioned branch. -/
theorem claim_C1 : ∀ value m0 m1 : Bool,
    outWeight (build_teleportation_circuit value m0 m1) (!value) = 0 ∧
    outWeight (build_teleportation_circuit value m0 m1) value ≠ 0 := by decide

/-- C2 (amended) — decoding the encoding returns the original string for all
valid strings that are non-empty and do not start with the NUL character;
the round trip fails on strings with leading NUL (see the counterexample),
because the integer conversion silently drops leading zero bytes. -/
theorem claim_C2 : ∀ s : List ℕ, (∀ c ∈ s, c < 0x110000) → s ≠ [] → s.headI ≠ 0 →
    text_from_bits (text_to_bits s) = some s := by
  intro s hs hne hh
  match s with
  | c0 :: cs =>
    have h0 : c0 ≠ 0 := by simpa using hh
    exact text_roundtrip_aux c0 cs (by omega) (hs c0 (by simp))
      (fun c hc => hs c (by simp [hc]))

/-- C2 counterexample — the two-character string `"\x00\x00"` (code points
`[0, 0]`) does not round-trip: it decodes back to the single NUL string. -/
theorem claim_C2_counterexample :
    text_from_bits (text_to_bits [0, 0]) ≠ some [0, 0] ∧
    text_from_bits (text_to_bits [0, 0]) = some [0] := by decide

/-- C2 witness — the round trip at the concrete string `"hi"`. -/
theorem claim_C2_witness : text_from_bits (text_to_bits [104, 105]) = some [104, 105] :=
  claim_C2 [104, 105] (by decide) (by decide) (by decide)

/-- C3 — in the ideal noiseless simulation, for every input bit, each of the
4 classical outcomes of Alice's measurements carries the same unnormalised
weight 1 out of a total of 4 (so the outcome distribution is uniform over
{00,01,10,11}), and the weight does not depend on the payload bit. -/
theorem claim_C3 : ∀ value m0 m1 : Bool,
    outcomeWeight value m0 m1 = 1 ∧
    totalWeight (preMeasureState value) = 4 ∧
    outcomeWeight value m0 m1 = outcomeWeight (!value) m0 m1 := by decide

/-- C4 — `bob_gates` is exactly the static Correction Table lookup on
`(crz, crx)` (X applied precisely when `crx = 1`, Z precisely when
`crz = 1`: 00 -> identity, 01 -> X, 10 -> Z, 11 -> Z X), and for every
outcome and payload bit the tabulated correction yields a receiving unit
that measures as the payload bit with certainty in the ideal model. -/
theorem claim_C4 :
    (∀ (crz crx : Bool) (ψ : QState), bob_gates crz crx ψ = correctionTable crz crx ψ) ∧
    ∀ value m0 m1 : Bool,
      outWeight (correctionTable m0 m1 (projectMeas m0 m1 (preMeasureState value))) (!value) = 0 ∧
      outWeight (correctionTable m0 m1 (projectMeas m0 m1 (preMeasureState value))) value ≠ 0 := by
  refine ⟨fun crz crx ψ => ?_, by decide⟩
  cases crz <;> cases crx <;> rfl

/-- C5 — end-to-end scenario: `text_to_bits("hi")` is the 16-bit string
`0110100001101001`; relaying each bit through the ideal simulator returns
the same bits whatever classical outcomes occur; decoding yields `"hi"`;
hence `send_quantum_message("hi")` returns `"hi"` in the ideal model. -/
theorem claim_C5 :
    text_to_bits [104, 105] = [false, true, true, false, true, false, false, false,
      false, true, true, false, true, false, false, true] ∧
    (∀ stream : ℕ → Draw, relayLoop stream (text_to_bits [104, 105]) 0 =
      text_to_bits [104, 105]) ∧
    text_from_bits (text_to_bits [104, 105]) = some [104, 105] ∧
    ∀ stream : ℕ → Draw, send_quantum_message stream [104, 105] = some [104, 105] := by
  refine ⟨by decide, fun stream => relayLoop_ideal stream _ 0, by decide, fun stream => ?_⟩
  rw [send_quantum_message, relayLoop_ideal stream _ 0]
  decide

/-- C6 (amended) — the decoder fails exactly when the input bit string is
empty (`int('', 2)` raises) or the rebuilt bytes are not valid text under
UTF-8 with `surrogatepass`; a bit length that is not a multiple of 8 does
NOT by itself cause a failure (see the counterexample), and the `to_bytes`
step never fails. -/
theorem claim_C6 :
    text_from_bits [] = none ∧
    ∀ bits : List Bool, bits ≠ [] →
      (text_from_bits bits = none ↔
        utf8Decode (natToBeBytes ((bitLen (natOfBits bits) + 7) / 8) (natOfBits bits)) = none) := by
  refine ⟨rfl, fun bits hb => ?_⟩
  rw [text_from_bits, if_neg hb, pyToBytes, if_pos (lt_pow_toBytes_len (natOfBits bits))]
  show (match utf8Decode (natToBeBytes ((bitLen (natOfBits bits) + 7) / 8) (natOfBits bits)) with
        | none => none
        | some s => some (if s = [] then [0] else s)) = none ↔ _
  cases h : utf8Decode (natToBeBytes ((bitLen (natOfBits bits) + 7) / 8) (natOfBits bits)) with
  | none => simp
  | some s => simp

/-- C6 counterexample — the one-bit input `"1"` has length 1, which is not
a multiple of 8, yet `text_from_bits` succeeds and returns `"\x01"`
instead of raising the DecodeError the claim requires. -/
theorem claim_C6_counterexample :
    [true].length % 8 ≠ 0 ∧ text_from_bits [true] = some [1] := by decide

/-- C6 witness — for the all-ones byte 0xFF (an invalid UTF-8 byte) the
decoder fails, and the equivalence of the amended claim holds there. -/
theorem claim_C6_witness :
    text_from_bits (List.replicate 8 true) = none ↔
      utf8Decode (natToBeBytes ((bitLen (natOfBits (List.replicate 8 true)) + 7) / 8)
        (natOfBits (List.replicate 8 true))) = none :=
  claim_C6.2 (List.replicate 8 true) (by decide)

/-- C7 (amended) — the empty string does NOT encode to the empty bit
sequence: `text_to_bits("")` is the eight-bit string `"00000000"`, and
decoding it yields the one-character NUL string `"\x00"`, not `""`. -/
theorem claim_C7 :
    text_to_bits [] = List.replicate 8 false ∧
    text_from_bits (text_to_bits []) = some [0] := by decide

/-- C7 counterexample — the empty string encodes to a non-empty bit
sequence, and the round trip does not return the empty string. -/
theorem claim_C7_counterexample :
    text_to_bits [] ≠ [] ∧ text_from_bits (text_to_bits []) ≠ some [] := by decide

/-- C8 — `send_quantum_message` runs the per-bit relay exactly once per
encoded bit (the received list has the same length as the encoded list),
processes bits in their original order (the i-th received bit is the relay
output for the i-th encoded bit using the i-th random draw), and decodes
the concatenation of the received bits. -/
theorem claim_C8 : ∀ (stream : ℕ → Draw) (message : List ℕ),
    (relayLoop stream (text_to_bits message) 0).length = (text_to_bits message).length ∧
    (∀ i : ℕ, i < (text_to_bits message).length →
      (relayLoop stream (text_to_bits message) 0).getD i false =
        relayOutputBit ((text_to_bits message).getD i false)
          (stream i).1.1 (stream i).1.2 (stream i).2) ∧
    send_quantum_message stream message =
      text_from_bits (relayLoop stream (text_to_bits message) 0) := by
  intro stream message
  refine ⟨relayLoop_length stream _ 0, fun i hi => ?_, rfl⟩
  simpa using relayLoop_getD stream (text_to_bits message) 0 i hi

/-- C8 witness — the indexwise correspondence instantiated at `"hi"`,
index 0 and a constant draw stream. -/
theorem claim_C8_witness :
    (relayLoop (fun _ => ((false, false), false)) (text_to_bits [104, 105]) 0).getD 0 false =
      relayOutputBit ((text_to_bits [104, 105]).getD 0 false) false false false :=
  (claim_C8 (fun _ => ((false, false), false)) [104, 105]).2.1 0 (by decide)

/-- C9 — for every non-empty string whose first character is not NUL, the
round trip `text_from_bits(text_to_bits(s)) = s` holds: the `zfill`
padding restores exactly the leading zero bits stripped by the integer
conversion. -/
theorem claim_C9 : ∀ (c0 : ℕ) (cs : List ℕ), c0 ≠ 0 → c0 < 0x110000 →
    (∀ c ∈ cs, c < 0x110000) →
    text_from_bits (text_to_bits (c0 :: cs)) = some (c0 :: cs) :=
  fun c0 cs h0 h2 hcs => text_roundtrip_aux c0 cs (by omega) h2 hcs

/-- C9 witness — the round trip at the concrete one-character string `"A"`. -/
theorem claim_C9_witness : text_from_bits (text_to_bits [65]) = some [65] :=
  claim_C9 65 [] (by decide) (by decide) (by decide)

/-- C10 — `text_from_bits` never returns the empty string: every successful
decode is non-empty, and on a non-empty all-zero bit string (empty decoded
byte sequence) it returns the one-character NUL string `"\x00"`. -/
theorem claim_C10 :
    (∀ (bits : List Bool) (r : List ℕ), text_from_bits bits = some r → r ≠ []) ∧
    ∀ bits : List Bool, bits ≠ [] → (∀ b ∈ bits, b = false) →
      text_from_bits bits = some [0] := by
  constructor
  · intro bits r h
    rw [text_from_bits] at h
    by_cases hb : bits = []
    · rw [if_pos hb] at h
      exact absurd h (by simp)
    · rw [if_neg hb] at h
      cases hp : pyToBytes ((bitLen (natOfBits bits) + 7) / 8) (natOfBits bits) with
      | none =>
        rw [hp] at h
        exact absurd h (by simp)
      | some bytes =>
        rw [hp] at h
        have h2 : (match utf8Decode bytes with
            | none => none
            | some s => some (if s = [] then [0] else s)) = some r := h
        cases hd : utf8Decode bytes with
        | none =>
          rw [hd] at h2
          exact absurd h2 (by simp)
        | some s =>
          rw [hd] at h2
          simp only [Option.some.injEq] at h2
          subst h2
          by_cases hs : s = []
          · rw [if_pos hs]; simp
          · rw [if_neg hs]; exact hs
  · intro bits hb hf
    have h0 : natOfBits bits = 0 := natOfBits_zero_of_all_false bits hf
    rw [text_from_bits, if_neg hb, h0]
    rfl

/-- C10 witness — the all-zero byte `"00000000"` decodes to the NUL string,
which is non-empty. -/
theorem claim_C10_witness :
    text_from_bits (List.replicate 8 false) = some [0] ∧ ([0] : List ℕ) ≠ [] :=
  ⟨claim_C10.2 (List.replicate 8 false) (by decide) (by decide),
   claim_C10.1 (List.replicate 8 false) [0]
     (claim_C10.2 (List.replicate 8 false) (by decide) (by decide))⟩
